import Mathlib

/-!
Verification of the `gdwg::graph` directed weighted graph container
(`src/gdwg_graph.h`) against its natural-language specification.

The C++ container stores a `std::set<N>` of nodes and a
`std::vector<std::shared_ptr<edge>>` of polymorphic edges (weighted or
unweighted).  We embed it shallowly: the node set becomes a sorted-unique
list, the edge vector a list of an inductive edge type, and every throwing
operation returns an `Except` paired with the post-call state (the state is
the original graph on the throw path, since the code raises before any
mutation).  `std::sort` with a strict-weak-order comparator `lt` yields the
unique permutation sorted by `fun a b => !(lt b a)`; because equal sort keys
imply equal edge values here, we model it by an executable sort (`bsort`).

Aliasing of `shared_ptr` edge instances between a graph and its copy is
modelled separately by an explicit heap (`Heap`/`HGraph`) for the
copy-semantics claims.
-/

namespace GDWG

variable {N E : Type} [LinearOrder N] [LinearOrder E]

instance exceptDecidableEq {ε α : Type} [DecidableEq ε] [DecidableEq α] :
    DecidableEq (Except ε α)
| .ok a, .ok b =>
    if h : a = b then isTrue (by rw [h]) else isFalse (fun hc => h (Except.ok.inj hc))
| .ok _, .error _ => isFalse (fun hc => Except.noConfusion hc)
| .error _, .ok _ => isFalse (fun hc => Except.noConfusion hc)
| .error a, .error b =>
    if h : a = b then isTrue (by rw [h]) else isFalse (fun hc => h (Except.error.inj hc))

/-- Ordered insertion of one element (helper of `bsort`). -/
def insort (le : α → α → Bool) (x : α) : List α → List α
| [] => [x]
| y :: ys => if le x y then x :: y :: ys else y :: insort le x ys

/-- Insertion sort by a boolean comparator.  `std::sort` over a strict weak
order whose ties are equal values has a unique output, so any correct,
kernel-computable sort models it; the spec's design notes explicitly allow
ordered insertion in place of a global sort. -/
def bsort (le : α → α → Bool) : List α → List α
| [] => []
| x :: xs => insort le x (bsort le xs)

theorem insort_perm (le : α → α → Bool) (x : α) :
    ∀ l : List α, (insort le x l).Perm (x :: l)
| [] => List.Perm.refl _
| y :: ys => by
    by_cases h : le x y = true
    · simp [insort, h]
    · simp only [insort, h, if_false]
      exact ((insort_perm le x ys).cons y).trans (List.Perm.swap x y ys)

theorem bsort_perm (le : α → α → Bool) : ∀ l : List α, (bsort le l).Perm l
| [] => List.Perm.refl _
| x :: xs => (insort_perm le x (bsort le xs)).trans ((bsort_perm le xs).cons x)

theorem insort_pairwise (le : α → α → Bool)
    (htrans : ∀ a b c, le a b = true → le b c = true → le a c = true)
    (htotal : ∀ a b, le a b = true ∨ le b a = true) (x : α) :
    ∀ {l : List α}, l.Pairwise (fun a b => le a b = true) →
      (insort le x l).Pairwise (fun a b => le a b = true)
| [], _ => List.Pairwise.cons (by simp) List.Pairwise.nil
| y :: ys, h => by
    match h with
    | List.Pairwise.cons hy hys =>
      by_cases hxy : le x y = true
      · simp only [insort, hxy, if_true]
        refine List.Pairwise.cons ?_ (List.Pairwise.cons hy hys)
        intro b hb
        rcases List.mem_cons.mp hb with hb | hb
        · rw [hb]; exact hxy
        · exact htrans x y b hxy (hy b hb)
      · simp only [insort, hxy, if_false]
        refine List.Pairwise.cons ?_ (insort_pairwise le htrans htotal x hys)
        intro b hb
        rcases List.mem_cons.mp ((insort_perm le x ys).mem_iff.mp hb) with hb' | hb'
        · rw [hb']
          rcases htotal x y with hc | hc
          · exact absurd hc hxy
          · exact hc
        · exact hy b hb'

theorem bsort_pairwise (le : α → α → Bool)
    (htrans : ∀ a b c, le a b = true → le b c = true → le a c = true)
    (htotal : ∀ a b, le a b = true ∨ le b a = true) :
    ∀ l : List α, (bsort le l).Pairwise (fun a b => le a b = true)
| [] => List.Pairwise.nil
| x :: xs => insort_pairwise le htrans htotal x (bsort_pairwise le htrans htotal xs)

theorem bsort_of_pairwise (le : α → α → Bool) :
    ∀ {l : List α}, l.Pairwise (fun a b => le a b = true) → bsort le l = l
| [], _ => rfl
| x :: xs, h => by
    match h with
    | List.Pairwise.cons hx hxs =>
      rw [bsort, bsort_of_pairwise le hxs]
      cases xs with
      | nil => rfl
      | cons y ys => simp [insort, hx y (by simp)]

/-- Polymorphic edge: `weighted_edge` or `unweighted_edge` from the source. -/
inductive Edge (N E : Type) where
| weighted (src dst : N) (weight : E)
| unweighted (src dst : N)
deriving DecidableEq, Repr

namespace Edge

/-- Source endpoint (`src_` member). -/
def src : Edge N E → N
| .weighted s _ _ => s
| .unweighted s _ => s

/-- Destination endpoint (`dst_` member). -/
def dst : Edge N E → N
| .weighted _ d _ => d
| .unweighted _ d => d

/-- `is_weighted()` member. -/
def is_weighted : Edge N E → Bool
| .weighted _ _ _ => true
| .unweighted _ _ => false

/-- `get_weight()` member: `some` for weighted, `none` for unweighted. -/
def get_weight : Edge N E → Option E
| .weighted _ _ w => some w
| .unweighted _ _ => none

/-- `get_nodes()` member. -/
def get_nodes (e : Edge N E) : N × N := (e.src, e.dst)

/-- `replace(p, v)` member: `(p == 1 ? dst_ : src_) = v`. -/
def replace (p : Nat) (v : N) : Edge N E → Edge N E
| .weighted s d w => if p = 1 then .weighted s v w else .weighted v d w
| .unweighted s d => if p = 1 then .unweighted s v else .unweighted v d

/-- `print_edge()` member: `"<src> -> <dst> | W | <w>"` or `"<src> -> <dst> | U"`. -/
def print_edge [ToString N] [ToString E] : Edge N E → String
| .weighted s d w => toString s ++ " -> " ++ toString d ++ " | W | " ++ toString w
| .unweighted s d => toString s ++ " -> " ++ toString d ++ " | U"

end Edge

/-- `std::set<N>::insert`: insert into the sorted unique list, no-op if present. -/
def setInsert (v : N) : List N → List N
| [] => [v]
| x :: xs => if v < x then v :: x :: xs else if v = x then x :: xs else x :: setInsert v xs

/-- `std::optional` `operator<`: `nullopt` below every value, values by `<`. -/
def opt_lt : Option E → Option E → Bool
| none, none => false
| none, some _ => true
| some _, none => false
| some a, some b => decide (a < b)

/-- The `sort_weight` comparator of `graph::sortedges`: lexicographic
strict order on (src, dst, optional weight). -/
def edge_lt (a b : Edge N E) : Bool :=
  if a.get_nodes.1 ≠ b.get_nodes.1 then decide (a.get_nodes.1 < b.get_nodes.1)
  else if a.get_nodes.2 ≠ b.get_nodes.2 then decide (a.get_nodes.2 < b.get_nodes.2)
  else opt_lt a.get_weight b.get_weight

/-- Non-strict companion of `edge_lt`; `std::sort` with `edge_lt` sorts by it. -/
def edge_le (a b : Edge N E) : Bool := !(edge_lt b a)

/-- `graph::sortedges`: `std::sort` of the edge vector by `edge_lt`.  Equal
sort keys determine equal edge values, so the sorted permutation is unique
and `bsort` computes it. -/
def sortedges (l : List (Edge N E)) : List (Edge N E) := bsort edge_le l

/-- The graph state: `std::set<N> nodes_` (sorted unique list) and
`std::vector<edge> edges_`. -/
structure Graph (N E : Type) where
  nodes_ : List N
  edges_ : List (Edge N E)
deriving DecidableEq, Repr

namespace Graph

/-- `is_node(value)`: `nodes_.contains(value)`. -/
def is_node (g : Graph N E) (value : N) : Bool := decide (value ∈ g.nodes_)

/-- `empty()`: `nodes_.empty()`. -/
def empty (g : Graph N E) : Bool := g.nodes_.isEmpty

/-- `find(src, dst, weight)`: index of the first edge whose
(src, dst, weight) triple matches, `none` for the end iterator. -/
def find (g : Graph N E) (src dst : N) (weight : Option E) : Option Nat :=
  g.edges_.findIdx? (fun e => decide (e.get_nodes.1 = src ∧ e.get_nodes.2 = dst ∧ e.get_weight = weight))

/-- `insert_node(value)`. -/
def insert_node (g : Graph N E) (value : N) : Bool × Graph N E :=
  if g.is_node value then (false, g)
  else (true, { g with nodes_ := setInsert value g.nodes_ })

/-- Exception message of `insert_edge`. -/
def insert_edge_emsg : String :=
  "Cannot call gdwg::graph<N, E>::insert_edge when either src or dst node does not exist"

/-- `insert_edge(src, dst, weight)`: the `Except` component models the thrown
`std::runtime_error`; the graph component is the post-call state. -/
def insert_edge (g : Graph N E) (src dst : N) (weight : Option E) :
    Except String Bool × Graph N E :=
  if g.is_node src && g.is_node dst then
    if (g.find src dst weight).isNone then
      match weight with
      | none =>
          (Except.ok true, { g with edges_ := sortedges (g.edges_ ++ [Edge.unweighted src dst]) })
      | some w =>
          (Except.ok true, { g with edges_ := sortedges (g.edges_ ++ [Edge.weighted src dst w]) })
    else (Except.ok false, g)
  else (Except.error insert_edge_emsg, g)

end Graph

/-- The endpoint-rewriting step of `replace_node`/`merge_replace_node`:
capture `get_nodes()` once, then `replace(0, new)` when the captured src
equals `old` and `replace(1, new)` when the captured dst equals `old`. -/
def rename_ends (old_data new_data : N) (e : Edge N E) : Edge N E :=
  let strpair := e.get_nodes
  let e1 := if strpair.1 = old_data then e.replace 0 new_data else e
  if strpair.2 = old_data then e1.replace 1 new_data else e1

namespace Graph

/-- Exception message of `replace_node`. -/
def replace_node_emsg : String :=
  "Cannot call gdwg::graph<N, E>::replace_node on a node that doesn\x27t exist"

/-- `replace_node(old_data, new_data)`. -/
def replace_node (g : Graph N E) (old_data new_data : N) :
    Except String Bool × Graph N E :=
  if g.is_node old_data then
    if !(g.is_node new_data) then
      (Except.ok true,
        { nodes_ := setInsert new_data (g.nodes_.erase old_data)
        , edges_ := sortedges (g.edges_.map (rename_ends old_data new_data)) })
    else (Except.ok false, g)
  else (Except.error replace_node_emsg, g)

end Graph

/-- The erase-as-you-go loop of `merge_replace_node`: each edge is renamed in
place; it is then erased exactly when `find` on its new triple hits an
earlier (already processed and kept) edge rather than the edge itself. -/
def merge_loop (old_data new_data : N) (acc : List (Edge N E)) :
    List (Edge N E) → List (Edge N E)
| [] => acc
| e :: rest =>
    let e2 := rename_ends old_data new_data e
    if acc.any (fun a => decide (a.get_nodes.1 = e2.get_nodes.1 ∧
        a.get_nodes.2 = e2.get_nodes.2 ∧ a.get_weight = e2.get_weight)) then
      merge_loop old_data new_data acc rest
    else
      merge_loop old_data new_data (acc ++ [e2]) rest

namespace Graph

/-- Exception message of `merge_replace_node`. -/
def merge_replace_node_emsg : String :=
  "Cannot call gdwg::graph<N, E>::merge_replace_node on old or new data if they don\x27t exist in the graph"

/-- `merge_replace_node(old_data, new_data)`. -/
def merge_replace_node (g : Graph N E) (old_data new_data : N) :
    Except String Unit × Graph N E :=
  if g.is_node old_data && g.is_node new_data then
    (Except.ok (), { g with edges_ := sortedges (merge_loop old_data new_data [] g.edges_) })
  else (Except.error merge_replace_node_emsg, g)

/-- `erase_node(value)`. -/
def erase_node (g : Graph N E) (value : N) : Bool × Graph N E :=
  if g.is_node value then
    (true,
      { nodes_ := g.nodes_.erase value
      , edges_ := sortedges (g.edges_.filter
          (fun e => !(decide (e.get_nodes.1 = value) || decide (e.get_nodes.2 = value)))) })
  else (false, g)

/-- Exception message of the (src, dst, weight) overload of `erase_edge`. -/
def erase_edge_emsg : String :=
  "Cannot call gdwg::graph<N, E>::erase_edge on src or dst if they don\x27t exist in the graph"

/-- `erase_edge(src, dst, weight)`. -/
def erase_edge (g : Graph N E) (src dst : N) (weight : Option E) :
    Except String Bool × Graph N E :=
  if g.is_node src && g.is_node dst then
    match g.find src dst weight with
    | some i => (Except.ok true, { g with edges_ := sortedges (g.edges_.eraseIdx i) })
    | none => (Except.ok false, g)
  else (Except.error erase_edge_emsg, g)

/-- `erase_edge(edge_iterator i)`: `vector::erase` at index `i` returns the
iterator at index `i` of the shrunk vector, then `sortedges` runs. -/
def erase_edge_at (g : Graph N E) (i : Nat) : Nat × Graph N E :=
  (i, { g with edges_ := sortedges (g.edges_.eraseIdx i) })

/-- `erase_edge(edge_iterator i, edge_iterator s)`: `vector::erase` of the
half-open index range [i, s) returns the iterator at index `i`. -/
def erase_edge_range (g : Graph N E) (i s : Nat) : Nat × Graph N E :=
  (i, { g with edges_ := sortedges (g.edges_.take i ++ g.edges_.drop s) })

/-- `clear()`. -/
def clear (_g : Graph N E) : Graph N E := { nodes_ := [], edges_ := [] }

/-- `nodes()`: copy the node set into a vector and `std::sort` it. -/
def nodes (g : Graph N E) : List N := bsort (fun a b => decide (a ≤ b)) g.nodes_

/-- The `sort_weight` comparator of the `edges` accessor compares only the
optional weights; its non-strict companion. -/
def weight_le (a b : Edge N E) : Bool := !(opt_lt b.get_weight a.get_weight)

/-- Exception message of `edges`. -/
def edges_emsg : String :=
  "Cannot call gdwg::graph<N, E>::edges if src or dst node don\x27t exist in the graph"

/-- `edges(src, dst)`: the matching edges in store order, `std::sort`ed by
optional weight (equal keys at one (src, dst) are equal edge values, so the
sorted result is unique and `bsort` computes it). -/
def edges (g : Graph N E) (src dst : N) : Except String (List (Edge N E)) :=
  if g.is_node src && g.is_node dst then
    Except.ok (bsort weight_le (g.edges_.filter
        (fun e => decide (e.get_nodes.1 = src ∧ e.get_nodes.2 = dst))))
  else Except.error edges_emsg

/-- Exception message of `is_connected`. -/
def is_connected_emsg : String :=
  "Cannot call gdwg::graph<N, E>::is_connected if src or dst node don\x27t exist in the graph"

/-- `is_connected(src, dst)`. -/
def is_connected (g : Graph N E) (src dst : N) : Except String Bool :=
  if g.is_node src && g.is_node dst then
    Except.ok (g.edges_.any (fun e => decide (e.get_nodes.1 = src ∧ e.get_nodes.2 = dst)))
  else Except.error is_connected_emsg

end Graph

/-- The accumulation loop of `connections`: push each matching destination
not already collected. -/
def conn_loop (src : N) : List (Edge N E) → List N → List N
| [], res => res
| e :: rest, res =>
    if e.get_nodes.1 = src ∧ ¬ (e.get_nodes.2 ∈ res) then
      conn_loop src rest (res ++ [e.get_nodes.2])
    else conn_loop src rest res

namespace Graph

/-- Exception message of `connections`. -/
def connections_emsg : String :=
  "Cannot call gdwg::graph<N, E>::connections if src doesn\x27t exist in the graph"

/-- `connections(src)`: first-occurrence distinct destinations, then sorted. -/
def connections (g : Graph N E) (src : N) : Except String (List N) :=
  if g.is_node src then
    Except.ok (bsort (fun a b => decide (a ≤ b)) (conn_loop src g.edges_ []))
  else Except.error connections_emsg

/-- `operator==`: sizes match, every node of `other` is in `this`, and every
edge triple of `other` is found in `this`. -/
def graph_beq (g other : Graph N E) : Bool :=
  if other.nodes_.length = g.nodes_.length ∧ other.edges_.length = g.edges_.length then
    other.nodes_.all (fun n => decide (n ∈ g.nodes_)) &&
      other.edges_.all (fun e => (g.find e.get_nodes.1 e.get_nodes.2 e.get_weight).isSome)
  else false

/-- `operator<<`: leading newline, then per node (ascending) a block listing,
per connection (ascending), that destination's edges (by weight, unweighted
first), each line `print_edge` indented two spaces.  The printer is
`noexcept`, so the error value models the process dying should an inner
accessor throw; under invariant I1 that never happens. -/
def graph_out [ToString N] [ToString E] (g : Graph N E) : Except String String := do
  let parts ← g.nodes.mapM (fun n => do
    let conn ← g.connections n
    let lines ← conn.mapM (fun cn => do
      let ce ← g.edges n cn
      pure (String.join (ce.map (fun e => "  " ++ e.print_edge ++ "\n"))))
    pure (toString n ++ " (\n" ++ String.join lines ++ ")\n"))
  pure ("\n" ++ String.join parts)

/-- Iterator dereference at index `i`: the `(from, to, weight)` value type. -/
def deref (g : Graph N E) (i : Nat) : Option (N × N × Option E) :=
  (g.edges_[i]?).map (fun e => (e.get_nodes.1, e.get_nodes.2, e.get_weight))

end Graph

/-- The default constructor: both stores empty. -/
def graph_empty (N E : Type) : Graph N E := { nodes_ := [], edges_ := [] }

/-- The initializer-list / iterator-range constructors:
`nodes_{std::set<N>(first, last)}`, no edges. -/
def graph_init (il : List N) : Graph N E :=
  { nodes_ := il.foldl (fun s v => setInsert v s) [], edges_ := [] }

/-- The edge variant the spec says `insert_edge` constructs: weight absent
means unweighted. -/
def mk_edge (src dst : N) : Option E → Edge N E
| none => Edge.unweighted src dst
| some w => Edge.weighted src dst w

/-! ### The spec-side edge ordering and the container invariants -/

/-- Spec-side order on optional weights: an absent weight sorts before any
present weight at the same endpoints; present weights ascend. -/
def wle : Option E → Option E → Prop
| none, _ => True
| some _, none => False
| some a, some b => a ≤ b

instance wle_decidable : ∀ a b : Option E, Decidable (wle a b)
| none, none => isTrue trivial
| none, some _ => isTrue trivial
| some _, none => isFalse (fun h => h)
| some a, some b => inferInstanceAs (Decidable (a ≤ b))

/-- Spec-side edge ordering: ascending source, then destination, then weight
with absent weight first. -/
def key_le (a b : Edge N E) : Prop :=
  a.src < b.src ∨ (a.src = b.src ∧
    (a.dst < b.dst ∨ (a.dst = b.dst ∧ wle a.get_weight b.get_weight)))

instance key_le_decidable (a b : Edge N E) : Decidable (key_le a b) := by
  unfold key_le; infer_instance

/-- Invariant I1: every edge endpoint is a member of the node set. -/
def I1 (g : Graph N E) : Prop := ∀ e ∈ g.edges_, e.src ∈ g.nodes_ ∧ e.dst ∈ g.nodes_

/-- Invariant I2: no two edges of the store share their (src, dst, weight)
triple. -/
def I2 (l : List (Edge N E)) : Prop :=
  l.Pairwise (fun a b => ¬(a.src = b.src ∧ a.dst = b.dst ∧ a.get_weight = b.get_weight))

/-- Invariant I3: the edge store ascends by source, then destination, then
weight with absent weight first. -/
def I3 (l : List (Edge N E)) : Prop := l.Pairwise key_le

instance I1_decidable (g : Graph N E) : Decidable (I1 g) := by unfold I1; infer_instance

instance I2_decidable (l : List (Edge N E)) : Decidable (I2 l) := by unfold I2; infer_instance

instance I3_decidable (l : List (Edge N E)) : Decidable (I3 l) := by unfold I3; infer_instance

theorem wle_iff_not_opt_lt (a b : Option E) : wle a b ↔ opt_lt b a = false := by
  cases a <;> cases b <;>
    simp [wle, opt_lt, not_lt, decide_eq_false_iff_not]

theorem wle_total (a b : Option E) : wle a b ∨ wle b a := by
  cases a <;> cases b <;> simp [wle]
  exact le_total _ _

theorem wle_trans {a b c : Option E} (h1 : wle a b) (h2 : wle b c) : wle a c := by
  cases a <;> cases b <;> cases c <;> simp [wle] at h1 h2 ⊢
  exact le_trans h1 h2

theorem wle_antisymm {a b : Option E} (h1 : wle a b) (h2 : wle b a) : a = b := by
  cases a <;> cases b <;> simp [wle] at h1 h2 ⊢
  exact le_antisymm h1 h2

theorem edge_le_iff (a b : Edge N E) : edge_le a b = true ↔ key_le a b := by
  simp only [edge_le, edge_lt, Edge.get_nodes, Bool.not_eq_true', key_le]
  by_cases h1 : b.src = a.src
  · by_cases h2 : b.dst = a.dst
    · simp [h1, h2, ← wle_iff_not_opt_lt, lt_irrefl]
    · have h2' : a.dst ≠ b.dst := fun h => h2 h.symm
      simp only [h1, ne_eq, not_true_eq_false, if_false, h2, not_false_eq_true, if_true,
        decide_eq_false_iff_not, not_lt, h2', false_and, and_false, or_false, lt_irrefl,
        false_or, true_and]
      constructor
      · intro h; exact lt_of_le_of_ne h (fun e => h2 e.symm)
      · intro h; exact le_of_lt h
  · have h1' : a.src ≠ b.src := fun h => h1 h.symm
    simp only [ne_eq, h1, not_false_eq_true, if_true, decide_eq_false_iff_not, not_lt,
      h1', false_and, or_false]
    constructor
    · intro h; exact lt_of_le_of_ne h h1'
    · intro h; exact le_of_lt h

theorem key_le_total (a b : Edge N E) : key_le a b ∨ key_le b a := by
  rcases lt_trichotomy a.src b.src with h | h | h
  · exact Or.inl (Or.inl h)
  · rcases lt_trichotomy a.dst b.dst with h' | h' | h'
    · exact Or.inl (Or.inr ⟨h, Or.inl h'⟩)
    · rcases wle_total a.get_weight b.get_weight with hw | hw
      · exact Or.inl (Or.inr ⟨h, Or.inr ⟨h', hw⟩⟩)
      · exact Or.inr (Or.inr ⟨h.symm, Or.inr ⟨h'.symm, hw⟩⟩)
    · exact Or.inr (Or.inr ⟨h.symm, Or.inl h'⟩)
  · exact Or.inr (Or.inl h)

theorem key_le_trans {a b c : Edge N E} (h1 : key_le a b) (h2 : key_le b c) : key_le a c := by
  rcases h1 with h | ⟨e1, h1'⟩
  · rcases h2 with h' | ⟨e2, _⟩
    · exact Or.inl (lt_trans h h')
    · exact Or.inl (by rw [← e2]; exact h)
  · rcases h2 with h' | ⟨e2, h2'⟩
    · exact Or.inl (by rw [e1]; exact h')
    · refine Or.inr ⟨e1.trans e2, ?_⟩
      rcases h1' with hd | ⟨ed1, hw1⟩
      · rcases h2' with hd' | ⟨ed2, _⟩
        · exact Or.inl (lt_trans hd hd')
        · exact Or.inl (by rw [← ed2]; exact hd)
      · rcases h2' with hd' | ⟨ed2, hw2⟩
        · exact Or.inl (by rw [ed1]; exact hd')
        · exact Or.inr ⟨ed1.trans ed2, wle_trans hw1 hw2⟩

omit [LinearOrder N] [LinearOrder E] in
/-- The (src, dst, weight) triple determines the edge value: the weight
option also fixes the weighted/unweighted variant. -/
theorem edge_eq_of_key (a b : Edge N E) (hs : a.src = b.src) (hd : a.dst = b.dst)
    (hw : a.get_weight = b.get_weight) : a = b := by
  cases a <;> cases b <;> simp_all [Edge.src, Edge.dst, Edge.get_weight]

theorem key_le_antisymm {a b : Edge N E} (h1 : key_le a b) (h2 : key_le b a) : a = b := by
  rcases h1 with h | ⟨e1, h1'⟩
  · rcases h2 with h' | ⟨e2, _⟩
    · exact absurd h' (lt_asymm h)
    · exact absurd h (by rw [e2]; exact lt_irrefl _)
  · rcases h2 with h' | ⟨e2, h2'⟩
    · exact absurd h' (by rw [e1]; exact lt_irrefl _)
    · rcases h1' with hd | ⟨ed1, hw1⟩
      · rcases h2' with hd' | ⟨ed2, _⟩
        · exact absurd hd' (lt_asymm hd)
        · exact absurd hd (by rw [ed2]; exact lt_irrefl _)
      · rcases h2' with hd' | ⟨ed2, hw2⟩
        · exact absurd hd' (by rw [ed1]; exact lt_irrefl _)
        · exact edge_eq_of_key a b e1 ed1 (wle_antisymm hw1 hw2)

theorem edge_le_trans' : ∀ (a b c : Edge N E),
    edge_le a b = true → edge_le b c = true → edge_le a c = true := fun a b c h1 h2 =>
  (edge_le_iff a c).mpr (key_le_trans ((edge_le_iff a b).mp h1) ((edge_le_iff b c).mp h2))

theorem edge_le_total' : ∀ (a b : Edge N E), edge_le a b = true ∨ edge_le b a = true := by
  intro a b
  rcases key_le_total a b with h | h
  · exact Or.inl ((edge_le_iff a b).mpr h)
  · exact Or.inr ((edge_le_iff b a).mpr h)

theorem sortedges_perm (l : List (Edge N E)) : (sortedges l).Perm l :=
  bsort_perm edge_le l

theorem I3_sortedges (l : List (Edge N E)) : I3 (sortedges l) :=
  (bsort_pairwise edge_le edge_le_trans' edge_le_total' l).imp
    (fun h => (edge_le_iff _ _).mp h)

theorem sortedges_of_I3 {l : List (Edge N E)} (h : I3 l) : sortedges l = l :=
  bsort_of_pairwise edge_le (h.imp fun hk => (edge_le_iff _ _).mpr hk)

omit [LinearOrder E] in
theorem is_node_iff (g : Graph N E) (v : N) : g.is_node v = true ↔ v ∈ g.nodes_ := by
  simp [Graph.is_node]

theorem find_eq_none_iff (g : Graph N E) (s d : N) (w : Option E) :
    g.find s d w = none ↔ ∀ e ∈ g.edges_, ¬(e.src = s ∧ e.dst = d ∧ e.get_weight = w) := by
  simp [Graph.find, List.findIdx?_eq_none_iff, Edge.get_nodes]

/-! ### Claim theorems -/

/-- C5: `insert_edge`, `replace_node`, `merge_replace_node`, and the
(src, dst, weight) overload of `erase_edge` each raise their
precondition-violation error before performing any mutation: whenever the
call reports an error, the post-call graph equals the pre-call graph. -/
theorem claim_C5_strong_exception_safety (g : Graph N E) :
    (∀ src dst w msg, (g.insert_edge src dst w).1 = Except.error msg →
      (g.insert_edge src dst w).2 = g) ∧
    (∀ od nd msg, (g.replace_node od nd).1 = Except.error msg →
      (g.replace_node od nd).2 = g) ∧
    (∀ od nd msg, (g.merge_replace_node od nd).1 = Except.error msg →
      (g.merge_replace_node od nd).2 = g) ∧
    (∀ src dst w msg, (g.erase_edge src dst w).1 = Except.error msg →
      (g.erase_edge src dst w).2 = g) := by
  refine ⟨?_, ?_, ?_, ?_⟩
  · intro src dst w msg h
    by_cases h1 : (g.is_node src && g.is_node dst) = true
    · exfalso
      by_cases h2 : (g.find src dst w).isNone = true
      · cases w <;> simp [Graph.insert_edge, h1, h2] at h
      · simp [Graph.insert_edge, h1, h2] at h
    · simp [Graph.insert_edge, h1]
  · intro od nd msg h
    by_cases h1 : g.is_node od = true
    · exfalso
      by_cases h2 : g.is_node nd = true
      · simp [Graph.replace_node, h1, h2] at h
      · simp [Graph.replace_node, h1, h2] at h
    · simp [Graph.replace_node, h1]
  · intro od nd msg h
    by_cases h1 : (g.is_node od && g.is_node nd) = true
    · exfalso; simp [Graph.merge_replace_node, h1] at h
    · simp [Graph.merge_replace_node, h1]
  · intro src dst w msg h
    by_cases h1 : (g.is_node src && g.is_node dst) = true
    · exfalso
      rcases hf : g.find src dst w with _ | i <;>
        simp [Graph.erase_edge, h1, hf] at h
    · simp [Graph.erase_edge, h1]

/-- Witness for C5 at a concrete graph: erasing through a missing node
leaves the graph untouched. -/
theorem claim_C5_witness :
    (((graph_init [1, 2] : Graph Nat Int).insert_edge 5 6 none).2 = graph_init [1, 2]) :=
  (claim_C5_strong_exception_safety (graph_init [1, 2])).1 5 6 none
    Graph.insert_edge_emsg (by decide)

/-- C2: `insert_edge` errors when either endpoint is missing; returns false
and changes nothing when the exact (src, dst, weight) triple is present;
otherwise builds the matching variant (unweighted iff the weight is absent),
inserts it, leaves the node store alone, and re-establishes the I3 order. -/
theorem claim_C2_insert_edge (g : Graph N E) (src dst : N) (w : Option E) :
    (¬(src ∈ g.nodes_ ∧ dst ∈ g.nodes_) →
      g.insert_edge src dst w = (Except.error Graph.insert_edge_emsg, g)) ∧
    (src ∈ g.nodes_ → dst ∈ g.nodes_ →
      (∃ e ∈ g.edges_, e.src = src ∧ e.dst = dst ∧ e.get_weight = w) →
      g.insert_edge src dst w = (Except.ok false, g)) ∧
    (src ∈ g.nodes_ → dst ∈ g.nodes_ →
      (∀ e ∈ g.edges_, ¬(e.src = src ∧ e.dst = dst ∧ e.get_weight = w)) →
      (g.insert_edge src dst w).1 = Except.ok true ∧
      (g.insert_edge src dst w).2.nodes_ = g.nodes_ ∧
      (g.insert_edge src dst w).2.edges_.Perm (g.edges_ ++ [mk_edge src dst w]) ∧
      I3 (g.insert_edge src dst w).2.edges_) := by
  refine ⟨?_, ?_, ?_⟩
  · intro h
    have h1 : (g.is_node src && g.is_node dst) = false := by
      simp only [Graph.is_node, Bool.and_eq_false_iff, decide_eq_false_iff_not]
      by_cases hs : src ∈ g.nodes_
      · exact Or.inr (fun hd => h ⟨hs, hd⟩)
      · exact Or.inl hs
    simp [Graph.insert_edge, h1]
  · intro hs hd hex
    have h1 : (g.is_node src && g.is_node dst) = true := by
      simp [Graph.is_node, hs, hd]
    have h2 : (g.find src dst w).isNone = false := by
      rcases hex with ⟨e, he, he1, he2, he3⟩
      rcases hf : g.find src dst w with _ | i
      · exact absurd ⟨he1, he2, he3⟩ ((find_eq_none_iff g src dst w).mp hf e he)
      · rfl
    simp [Graph.insert_edge, h1, h2]
  · intro hs hd hnone
    have h1 : (g.is_node src && g.is_node dst) = true := by
      simp [Graph.is_node, hs, hd]
    have h2 : (g.find src dst w).isNone = true := by
      rw [(find_eq_none_iff g src dst w).mpr hnone]; rfl
    cases w <;>
      exact ⟨by simp [Graph.insert_edge, h1, h2],
        by simp [Graph.insert_edge, h1, h2],
        by simp only [Graph.insert_edge, h1, h2, if_true]; exact sortedges_perm _,
        by simp only [Graph.insert_edge, h1, h2, if_true]; exact I3_sortedges _⟩

/-- Witness for C2 at a concrete graph: inserting a fresh weighted edge
between existing nodes succeeds. -/
theorem claim_C2_witness :
    ((graph_init [1, 2] : Graph Nat Int).insert_edge 1 2 (some 3)).1 = Except.ok true :=
  ((claim_C2_insert_edge (graph_init [1, 2]) 1 2 (some 3)).2.2 (by decide) (by decide)
    (by decide)).1

/-- C3: the edge store is in I3 order (ascending source, then destination,
then weight with an absent weight first) after construction, and every
mutating operation preserves it. -/
theorem claim_C3_I3_invariant (g : Graph N E) (h : I3 g.edges_) :
    I3 ((graph_empty N E).edges_) ∧
    (∀ il : List N, I3 ((graph_init il : Graph N E).edges_)) ∧
    (∀ v, I3 (g.insert_node v).2.edges_) ∧
    (∀ s d w, I3 (g.insert_edge s d w).2.edges_) ∧
    (∀ od nd, I3 (g.replace_node od nd).2.edges_) ∧
    (∀ od nd, I3 (g.merge_replace_node od nd).2.edges_) ∧
    (∀ v, I3 (g.erase_node v).2.edges_) ∧
    (∀ s d w, I3 (g.erase_edge s d w).2.edges_) ∧
    (∀ i, I3 (g.erase_edge_at i).2.edges_) ∧
    (∀ i j, I3 (g.erase_edge_range i j).2.edges_) ∧
    I3 (g.clear).edges_ := by
  refine ⟨List.Pairwise.nil, fun _ => List.Pairwise.nil, ?_, ?_, ?_, ?_, ?_, ?_,
    fun _ => I3_sortedges _, fun _ _ => I3_sortedges _, List.Pairwise.nil⟩
  · intro v
    unfold Graph.insert_node
    split
    · exact h
    · exact h
  · intro s d w
    unfold Graph.insert_edge
    split
    · split
      · cases w
        · exact I3_sortedges _
        · exact I3_sortedges _
      · exact h
    · exact h
  · intro od nd
    unfold Graph.replace_node
    split
    · split
      · exact I3_sortedges _
      · exact h
    · exact h
  · intro od nd
    unfold Graph.merge_replace_node
    split
    · exact I3_sortedges _
    · exact h
  · intro v
    unfold Graph.erase_node
    split
    · exact I3_sortedges _
    · exact h
  · intro s d w
    unfold Graph.erase_edge
    split
    · split
      · exact I3_sortedges _
      · exact h
    · exact h

/-- Witness for C3 at a concrete graph. -/
theorem claim_C3_witness :
    I3 (({ nodes_ := [1, 2], edges_ := [Edge.weighted 1 2 (5 : Int)] } :
      Graph Nat Int).insert_edge 1 1 none).2.edges_ :=
  (claim_C3_I3_invariant _ (by decide)).2.2.2.1 1 1 none

omit [LinearOrder N] [LinearOrder E] in
theorem get_nodes_fst (e : Edge N E) : e.get_nodes.1 = e.src := rfl

omit [LinearOrder N] [LinearOrder E] in
theorem get_nodes_snd (e : Edge N E) : e.get_nodes.2 = e.dst := rfl

theorem mem_setInsert (v x : N) : ∀ l : List N, x ∈ setInsert v l ↔ x = v ∨ x ∈ l
| [] => by simp [setInsert]
| y :: ys => by
    by_cases h1 : v < y
    · simp [setInsert, h1]
    · by_cases h2 : v = y
      · subst h2
        rw [setInsert, if_neg h1, if_pos rfl]
        simp only [List.mem_cons]
        tauto
      · simp only [setInsert, h1, if_false, h2, List.mem_cons, mem_setInsert v x ys]
        tauto

omit [LinearOrder E] in
theorem rename_ends_src (od nd : N) (e : Edge N E) :
    (rename_ends od nd e).src = if e.src = od then nd else e.src := by
  cases e with
  | weighted s d w =>
      by_cases h1 : s = od <;> by_cases h2 : d = od <;>
        simp [rename_ends, Edge.get_nodes, Edge.replace, Edge.src, Edge.dst, h1, h2]
  | unweighted s d =>
      by_cases h1 : s = od <;> by_cases h2 : d = od <;>
        simp [rename_ends, Edge.get_nodes, Edge.replace, Edge.src, Edge.dst, h1, h2]

omit [LinearOrder E] in
theorem rename_ends_dst (od nd : N) (e : Edge N E) :
    (rename_ends od nd e).dst = if e.dst = od then nd else e.dst := by
  cases e with
  | weighted s d w =>
      by_cases h1 : s = od <;> by_cases h2 : d = od <;>
        simp [rename_ends, Edge.get_nodes, Edge.replace, Edge.src, Edge.dst, h1, h2]
  | unweighted s d =>
      by_cases h1 : s = od <;> by_cases h2 : d = od <;>
        simp [rename_ends, Edge.get_nodes, Edge.replace, Edge.src, Edge.dst, h1, h2]

omit [LinearOrder E] in
theorem rename_ends_weight (od nd : N) (e : Edge N E) :
    (rename_ends od nd e).get_weight = e.get_weight := by
  cases e with
  | weighted s d w =>
      by_cases h1 : s = od <;> by_cases h2 : d = od <;>
        simp [rename_ends, Edge.get_nodes, Edge.replace, Edge.src, Edge.dst,
          Edge.get_weight, h1, h2]
  | unweighted s d =>
      by_cases h1 : s = od <;> by_cases h2 : d = od <;>
        simp [rename_ends, Edge.get_nodes, Edge.replace, Edge.src, Edge.dst,
          Edge.get_weight, h1, h2]

/-- C6: `replace_node` errors when the old node is missing; returns false
and changes nothing when the new node already exists; otherwise it swaps
the node (old out, new in), rewrites every edge endpoint equal to old
(both ends of a self-loop) without touching weights, keeps every edge (no
deduplication), restores the I3 order, and returns true. -/
theorem claim_C6_replace_node (g : Graph N E) (od nd : N) (hnodup : g.nodes_.Nodup) :
    (od ∉ g.nodes_ →
      g.replace_node od nd = (Except.error Graph.replace_node_emsg, g)) ∧
    (od ∈ g.nodes_ → nd ∈ g.nodes_ →
      g.replace_node od nd = (Except.ok false, g)) ∧
    (od ∈ g.nodes_ → nd ∉ g.nodes_ →
      (g.replace_node od nd).1 = Except.ok true ∧
      (∀ x, x ∈ (g.replace_node od nd).2.nodes_ ↔ (x ∈ g.nodes_ ∧ x ≠ od) ∨ x = nd) ∧
      (g.replace_node od nd).2.edges_.Perm (g.edges_.map (rename_ends od nd)) ∧
      (∀ e : Edge N E,
        (rename_ends od nd e).src = (if e.src = od then nd else e.src) ∧
        (rename_ends od nd e).dst = (if e.dst = od then nd else e.dst) ∧
        (rename_ends od nd e).get_weight = e.get_weight) ∧
      (g.replace_node od nd).2.edges_.length = g.edges_.length ∧
      I3 (g.replace_node od nd).2.edges_) := by
  refine ⟨?_, ?_, ?_⟩
  · intro h
    have h1 : g.is_node od = false := by simp [Graph.is_node, h]
    simp [Graph.replace_node, h1]
  · intro ho hn
    have h1 : g.is_node od = true := by simp [Graph.is_node, ho]
    have h2 : g.is_node nd = true := by simp [Graph.is_node, hn]
    simp [Graph.replace_node, h1, h2]
  · intro ho hn
    have h1 : g.is_node od = true := by simp [Graph.is_node, ho]
    have h2 : g.is_node nd = false := by simp [Graph.is_node, hn]
    refine ⟨by simp [Graph.replace_node, h1, h2], ?_, ?_, ?_, ?_, ?_⟩
    · intro x
      simp only [Graph.replace_node, h1, h2, Bool.not_false, if_true,
        mem_setInsert, hnodup.mem_erase_iff]
      tauto
    · simp only [Graph.replace_node, h1, h2, Bool.not_false, if_true]
      exact sortedges_perm _
    · exact fun e => ⟨rename_ends_src od nd e, rename_ends_dst od nd e,
        rename_ends_weight od nd e⟩
    · simp only [Graph.replace_node, h1, h2, Bool.not_false, if_true]
      exact ((sortedges_perm _).length_eq).trans (List.length_map _ _)
    · simp only [Graph.replace_node, h1, h2, Bool.not_false, if_true]
      exact I3_sortedges _

/-- Witness for C6 at a concrete graph: renaming node 2 of a two-node graph
to the fresh node 3 succeeds. -/
theorem claim_C6_witness :
    (({ nodes_ := [1, 2], edges_ := [Edge.weighted 1 2 (5 : Int)] } :
      Graph Nat Int).replace_node 2 3).1 = Except.ok true :=
  ((claim_C6_replace_node _ 2 3 (by decide)).2.2 (by decide) (by decide)).1

/-- C7: erasing through a dereferenceable iterator removes exactly the edge
at that index and returns the position now holding the next element;
erasing an iterator range removes exactly the half-open span and returns
the position now holding the element previously at the range's end. -/
theorem claim_C7_erase_edge_iterators (g : Graph N E) (i j : Nat) (h : I3 g.edges_) :
    (i < g.edges_.length →
      (g.erase_edge_at i).1 = i ∧
      (g.erase_edge_at i).2.nodes_ = g.nodes_ ∧
      (g.erase_edge_at i).2.edges_ = g.edges_.eraseIdx i ∧
      (g.erase_edge_at i).2.deref i = g.deref (i + 1)) ∧
    (i ≤ j → j ≤ g.edges_.length →
      (g.erase_edge_range i j).1 = i ∧
      (g.erase_edge_range i j).2.nodes_ = g.nodes_ ∧
      (g.erase_edge_range i j).2.edges_ = g.edges_.take i ++ g.edges_.drop j ∧
      (g.erase_edge_range i j).2.deref i = g.deref j) := by
  constructor
  · intro _
    have hsorted : I3 (g.edges_.eraseIdx i) := h.sublist (List.eraseIdx_sublist g.edges_ i)
    have hedges : (g.erase_edge_at i).2.edges_ = g.edges_.eraseIdx i := by
      simp only [Graph.erase_edge_at]
      exact sortedges_of_I3 hsorted
    refine ⟨rfl, rfl, hedges, ?_⟩
    simp only [Graph.deref, hedges]
    rw [List.getElem?_eraseIdx_of_ge g.edges_ i i (le_refl i)]
  · intro hij hjl
    have hsub : List.Sublist (g.edges_.take i ++ g.edges_.drop j) g.edges_ := by
      have h1 : List.Sublist (g.edges_.drop j) (g.edges_.drop i) :=
        List.drop_sublist_drop_left g.edges_ hij
      have h2 := List.Sublist.append_left h1 (g.edges_.take i)
      rw [List.take_append_drop i g.edges_] at h2
      exact h2
    have hedges : (g.erase_edge_range i j).2.edges_ =
        g.edges_.take i ++ g.edges_.drop j := by
      simp only [Graph.erase_edge_range]
      exact sortedges_of_I3 (h.sublist hsub)
    refine ⟨rfl, rfl, hedges, ?_⟩
    simp only [Graph.deref, hedges]
    have hlen : (g.edges_.take i).length = i := by
      rw [List.length_take]
      omega
    rw [List.getElem?_append_right (by rw [hlen]), hlen, Nat.sub_self,
      List.getElem?_drop, Nat.add_zero]

/-- Witness for C7 at a concrete graph: erasing index 0 of a two-edge store
leaves the other edge, now at position 0. -/
theorem claim_C7_witness :
    (({ nodes_ := [1, 2], edges_ := [Edge.unweighted 1 2, Edge.weighted 1 2 (4 : Int)] } :
      Graph Nat Int).erase_edge_at 0).2.edges_ =
      [Edge.weighted 1 2 (4 : Int)] :=
  ((claim_C7_erase_edge_iterators _ 0 0 (by decide)).1 (by decide)).2.2.1

/-- The (src, dst, weight) triple of an edge. -/
def etriple (e : Edge N E) : N × N × Option E := (e.src, e.dst, e.get_weight)

/-- Spec-side reading of the duplicate absorption of `merge_replace_node`:
process the renamed edges in order and drop an edge exactly when its triple
already occurred earlier (the earlier edge is the one kept). -/
def keep_first : List (Edge N E) → List (N × N × Option E) → List (Edge N E)
| [], _ => []
| e :: rest, seen =>
    if etriple e ∈ seen then keep_first rest seen
    else e :: keep_first rest (etriple e :: seen)

omit [LinearOrder N] [LinearOrder E] in
theorem etriple_eq_iff (a b : Edge N E) :
    etriple a = etriple b ↔ a.src = b.src ∧ a.dst = b.dst ∧ a.get_weight = b.get_weight := by
  simp [etriple, Prod.ext_iff]

/-- The interleaved rename-erase loop of `merge_replace_node` computes: map
the rename over all edges, then keep the first occurrence of each triple. -/
theorem merge_loop_eq_keep_first (od nd : N) :
    ∀ (l acc : List (Edge N E)) (seen : List (N × N × Option E)),
      (∀ t, t ∈ seen ↔ ∃ a ∈ acc, etriple a = t) →
      merge_loop od nd acc l = acc ++ keep_first (l.map (rename_ends od nd)) seen
| [], acc, seen, _ => by simp [merge_loop, keep_first]
| e :: rest, acc, seen, hinv => by
    simp only [merge_loop, List.map_cons, keep_first]
    by_cases hmem : etriple (rename_ends od nd e) ∈ seen
    · have hany : (acc.any fun a =>
          decide (a.get_nodes.1 = (rename_ends od nd e).get_nodes.1 ∧
            a.get_nodes.2 = (rename_ends od nd e).get_nodes.2 ∧
            a.get_weight = (rename_ends od nd e).get_weight)) = true := by
        rcases (hinv _).mp hmem with ⟨a, ha, hta⟩
        rw [List.any_eq_true]
        refine ⟨a, ha, ?_⟩
        rcases (etriple_eq_iff a _).mp hta with ⟨ht1, ht2, ht3⟩
        simp [get_nodes_fst, get_nodes_snd, ht1, ht2, ht3]
      rw [if_pos hmem, hany]
      simp only [if_true]
      exact merge_loop_eq_keep_first od nd rest acc seen hinv
    · have hany : (acc.any fun a =>
          decide (a.get_nodes.1 = (rename_ends od nd e).get_nodes.1 ∧
            a.get_nodes.2 = (rename_ends od nd e).get_nodes.2 ∧
            a.get_weight = (rename_ends od nd e).get_weight)) = false := by
        rw [List.any_eq_false]
        intro a ha
        simp only [get_nodes_fst, get_nodes_snd, decide_eq_true_eq]
        intro hc
        exact hmem ((hinv _).mpr ⟨a, ha, (etriple_eq_iff a _).mpr hc⟩)
      rw [if_neg hmem, hany]
      simp only [Bool.false_eq_true, if_false]
      rw [merge_loop_eq_keep_first od nd rest (acc ++ [rename_ends od nd e])
        (etriple (rename_ends od nd e) :: seen) ?_]
      · simp
      · intro t
        simp only [List.mem_cons, hinv t]
        constructor
        · rintro (ht | ⟨a, ha, hta⟩)
          · exact ⟨rename_ends od nd e,
              List.mem_append.mpr (Or.inr (List.mem_singleton.mpr rfl)), ht.symm⟩
          · exact ⟨a, List.mem_append.mpr (Or.inl ha), hta⟩
        · rintro ⟨a, ha, hta⟩
          rcases List.mem_append.mp ha with ha | ha
          · exact Or.inr ⟨a, ha, hta⟩
          · rw [List.mem_singleton.mp ha] at hta
            exact Or.inl hta.symm

/-- On a store without duplicate triples, keep-first deduplication with a
disjoint seen set keeps everything. -/
theorem keep_first_of_I2 :
    ∀ {l : List (Edge N E)} {seen : List (N × N × Option E)}, I2 l →
      (∀ e ∈ l, ¬(etriple e ∈ seen)) → keep_first l seen = l
| [], _, _, _ => rfl
| e :: rest, seen, h, hdis => by
    match h with
    | List.Pairwise.cons he hrest =>
      rw [keep_first, if_neg (hdis e (by simp))]
      congr 1
      apply keep_first_of_I2 hrest
      intro f hf
      simp only [List.mem_cons]
      rintro (ht | ht)
      · rcases (etriple_eq_iff f e).mp ht with ⟨h1, h2, h3⟩
        exact he f hf ⟨h1.symm, h2.symm, h3.symm⟩
      · exact hdis f (List.mem_cons_of_mem e hf) ht

omit [LinearOrder E] in
theorem rename_ends_self (v : N) (e : Edge N E) : rename_ends v v e = e := by
  refine edge_eq_of_key _ _ ?_ ?_ (rename_ends_weight v v e)
  · rw [rename_ends_src]
    split_ifs with h
    · exact h.symm
    · rfl
  · rw [rename_ends_dst]
    split_ifs with h
    · exact h.symm
    · rfl

/-- C4: `merge_replace_node` errors when either node is missing; otherwise
it rewrites every edge endpoint equal to old to new, drops an edge exactly
when its resulting triple duplicates one appearing earlier in iteration
order (the earlier edge is kept), leaves the node store — old included —
untouched, and restores the I3 order.  In particular, on nodes {1, 2, 3}
(standing for {A, B, C}) with edges 1→3(2) and 2→3(2), after
`merge_replace_node(1, 2)` the store answers `edges(2, 3)` with one edge. -/
theorem claim_C4_merge_replace_node (g : Graph N E) (od nd : N) :
    (¬(od ∈ g.nodes_ ∧ nd ∈ g.nodes_) →
      g.merge_replace_node od nd = (Except.error Graph.merge_replace_node_emsg, g)) ∧
    (od ∈ g.nodes_ → nd ∈ g.nodes_ →
      (g.merge_replace_node od nd).1 = Except.ok () ∧
      (g.merge_replace_node od nd).2.nodes_ = g.nodes_ ∧
      od ∈ (g.merge_replace_node od nd).2.nodes_ ∧
      (∀ e : Edge N E,
        (rename_ends od nd e).src = (if e.src = od then nd else e.src) ∧
        (rename_ends od nd e).dst = (if e.dst = od then nd else e.dst) ∧
        (rename_ends od nd e).get_weight = e.get_weight) ∧
      (g.merge_replace_node od nd).2.edges_.Perm
        (keep_first (g.edges_.map (rename_ends od nd)) []) ∧
      I3 (g.merge_replace_node od nd).2.edges_) ∧
    (((Graph.mk [1, 2, 3] [Edge.weighted 1 3 2, Edge.weighted 2 3 2] :
      Graph Nat Int).merge_replace_node 1 2).2.edges 2 3).map List.length =
      Except.ok 1 := by
  refine ⟨?_, ?_, by decide⟩
  · intro h
    have h1 : (g.is_node od && g.is_node nd) = false := by
      simp only [Graph.is_node, Bool.and_eq_false_iff, decide_eq_false_iff_not]
      by_cases ho : od ∈ g.nodes_
      · exact Or.inr (fun hn => h ⟨ho, hn⟩)
      · exact Or.inl ho
    simp [Graph.merge_replace_node, h1]
  · intro ho hn
    have h1 : (g.is_node od && g.is_node nd) = true := by
      simp [Graph.is_node, ho, hn]
    refine ⟨by simp [Graph.merge_replace_node, h1], by simp [Graph.merge_replace_node, h1],
      by simp only [Graph.merge_replace_node, h1, if_true]; exact ho,
      fun e => ⟨rename_ends_src od nd e, rename_ends_dst od nd e,
        rename_ends_weight od nd e⟩, ?_, ?_⟩
    · simp only [Graph.merge_replace_node, h1, if_true]
      have hml := merge_loop_eq_keep_first od nd g.edges_ [] [] (by simp)
      rw [List.nil_append] at hml
      rw [hml]
      exact sortedges_perm _
    · simp only [Graph.merge_replace_node, h1, if_true]
      exact I3_sortedges _

/-- Witness for C4 at a concrete graph: merging node 1 into node 2. -/
theorem claim_C4_witness :
    (({ nodes_ := [1, 2], edges_ := [Edge.weighted 1 2 (3 : Int)] } :
      Graph Nat Int).merge_replace_node 1 2).1 = Except.ok () :=
  ((claim_C4_merge_replace_node _ 1 2).2.1 (by decide) (by decide)).1

/-- C10: on a graph without duplicate edges (I2; the store is also in its
maintained I3 order), merging an existing node onto itself changes nothing:
every rename is the identity, every edge is its own first match, and the
node set is untouched. -/
theorem claim_C10_merge_replace_self (g : Graph N E) (v : N) (hv : v ∈ g.nodes_)
    (h2 : I2 g.edges_) (h3 : I3 g.edges_) :
    g.merge_replace_node v v = (Except.ok (), g) := by
  obtain ⟨gn, ge⟩ := g
  have h1 : (Graph.is_node ⟨gn, ge⟩ v && Graph.is_node ⟨gn, ge⟩ v) = true := by
    simp [Graph.is_node]
    exact hv
  have hmap : ge.map (rename_ends v v) = ge := by
    calc ge.map (rename_ends v v) = ge.map id :=
          List.map_congr_left (fun e _ => rename_ends_self v e)
    _ = ge := List.map_id ge
  have hloop : merge_loop v v [] ge = ge := by
    have hml := merge_loop_eq_keep_first v v ge [] [] (by simp)
    rw [List.nil_append] at hml
    rw [hml, hmap, keep_first_of_I2 h2 (by simp)]
  simp only [Graph.merge_replace_node, h1, if_true, hloop]
  rw [sortedges_of_I3 h3]

/-- Witness for C10 at a concrete graph. -/
theorem claim_C10_witness :
    (Graph.mk [1, 2] [Edge.weighted 1 2 (3 : Int), Edge.unweighted 2 1] :
      Graph Nat Int).merge_replace_node 1 1 =
      (Except.ok (), Graph.mk [1, 2] [Edge.weighted 1 2 (3 : Int), Edge.unweighted 2 1]) :=
  claim_C10_merge_replace_self _ 1 (by decide) (by decide) (by decide)

omit [LinearOrder N] in
theorem weight_le_iff (a b : Edge N E) :
    Graph.weight_le a b = true ↔ wle a.get_weight b.get_weight := by
  rw [Graph.weight_le, Bool.not_eq_true', ← wle_iff_not_opt_lt]

omit [LinearOrder N] in
theorem weight_le_trans' : ∀ (a b c : Edge N E),
    Graph.weight_le a b = true → Graph.weight_le b c = true →
    Graph.weight_le a c = true := fun a b c h1 h2 =>
  (weight_le_iff a c).mpr (wle_trans ((weight_le_iff a b).mp h1) ((weight_le_iff b c).mp h2))

omit [LinearOrder N] in
theorem weight_le_total' : ∀ (a b : Edge N E),
    Graph.weight_le a b = true ∨ Graph.weight_le b a = true := by
  intro a b
  rcases wle_total a.get_weight b.get_weight with h | h
  · exact Or.inl ((weight_le_iff a b).mpr h)
  · exact Or.inr ((weight_le_iff b a).mpr h)

omit [LinearOrder N] [LinearOrder E] in
theorem perm_pair {α : Type} {x y : α} :
    ∀ {l : List α}, l.Perm [x, y] → l = [x, y] ∨ l = [y, x] := by
  intro l hp
  have hlen : l.length = 2 := hp.length_eq
  match l, hlen with
  | [c, d], _ =>
    rcases List.mem_cons.mp (hp.mem_iff.mp (show c ∈ [c, d] by simp)) with hc | hc
    · have hd : [d].Perm [y] := by
        have hp' := hp
        rw [hc] at hp'
        exact hp'.cons_inv
      have hdy : d = y := by simpa using hd.mem_iff.mp (show d ∈ [d] by simp)
      exact Or.inl (by rw [hc, hdy])
    · have hcy : c = y := by simpa using hc
      have hp' : ([c, d]).Perm [y, x] := hp.trans (List.Perm.swap y x [])
      rw [hcy] at hp'
      have hd : [d].Perm [x] := hp'.cons_inv
      have hdx : d = x := by simpa using hd.mem_iff.mp (show d ∈ [d] by simp)
      exact Or.inr (by rw [hcy, hdx])

/-- Equation for the successful path of `insert_edge`: both endpoints exist
and the exact triple is absent. -/
theorem insert_edge_ok (g : Graph N E) (s d : N) (w : Option E)
    (h1 : s ∈ g.nodes_) (h2 : d ∈ g.nodes_)
    (h3 : ∀ e ∈ g.edges_, ¬(e.src = s ∧ e.dst = d ∧ e.get_weight = w)) :
    g.insert_edge s d w = (Except.ok true,
      { g with edges_ := sortedges (g.edges_ ++ [mk_edge s d w]) }) := by
  have hb : (g.is_node s && g.is_node d) = true := by simp [Graph.is_node, h1, h2]
  have hf : g.find s d w = none := (find_eq_none_iff g s d w).mpr h3
  cases w <;> simp [Graph.insert_edge, hb, hf, mk_edge]

/-- Counterexample to C9 as stated: the universal form fails as soon as
another a→b edge pre-exists.  On the graph with nodes {1, 2} and the edge
1→2(7), both inserts succeed, yet `edges(1, 2)` answers three edges. -/
theorem claim_C9_counterexample :
    ¬ (∀ (g : Graph Nat Int) (a b : Nat), a ∈ g.nodes_ → b ∈ g.nodes_ →
        (g.insert_edge a b none).1 = Except.ok true →
        (((g.insert_edge a b none).2).insert_edge a b (some 5)).1 = Except.ok true →
        ((((g.insert_edge a b none).2).insert_edge a b (some 5)).2.edges a b).map
          List.length = Except.ok 2) := by
  intro h
  exact absurd (h (Graph.mk [1, 2] [Edge.weighted 1 2 7]) 1 2 (by decide) (by decide)
    (by decide) (by decide)) (by decide)

/-- C9 (amended): an unweighted (a, b) edge and a weighted (a, b, w) one are
not duplicates, so on a graph with existing nodes a and b and no a→b edge
yet, both inserts succeed and `edges(a, b)` answers exactly the unweighted
edge first, then the weighted one (length 2).  For every graph, a successful
`edges` query is ascending by weight with unweighted edges first. -/
theorem claim_C9_unweighted_weighted_coexist (g : Graph N E) (a b : N) (w : E)
    (ha : a ∈ g.nodes_) (hb : b ∈ g.nodes_)
    (hempty : ∀ e ∈ g.edges_, ¬(e.src = a ∧ e.dst = b)) :
    (g.insert_edge a b none).1 = Except.ok true ∧
    (((g.insert_edge a b none).2).insert_edge a b (some w)).1 = Except.ok true ∧
    (((g.insert_edge a b none).2).insert_edge a b (some w)).2.edges a b =
      Except.ok [Edge.unweighted a b, Edge.weighted a b w] ∧
    (∀ (g' : Graph N E) (s d : N) (l : List (Edge N E)),
      g'.edges s d = Except.ok l →
      l.Pairwise (fun x y => wle x.get_weight y.get_weight)) := by
  have h1e := insert_edge_ok g a b none ha hb
    (fun e he hc => hempty e he ⟨hc.1, hc.2.1⟩)
  rw [h1e]
  have hperm1 : (sortedges (g.edges_ ++ [mk_edge a b none])).Perm
      (g.edges_ ++ [Edge.unweighted a b]) := sortedges_perm _
  have hnone2 : ∀ e ∈ sortedges (g.edges_ ++ [mk_edge a b none]),
      ¬(e.src = a ∧ e.dst = b ∧ e.get_weight = some w) := by
    intro e he hc
    rcases List.mem_append.mp (hperm1.mem_iff.mp he) with hmem | hmem
    · exact hempty e hmem ⟨hc.1, hc.2.1⟩
    · rw [List.mem_singleton.mp hmem] at hc
      simp [Edge.get_weight] at hc
  have h2e := insert_edge_ok
    { g with edges_ := sortedges (g.edges_ ++ [mk_edge a b none]) } a b (some w)
    ha hb hnone2
  rw [h2e]
  refine ⟨rfl, rfl, ?_, ?_⟩
  · have hb2 : (({ g with edges_ := sortedges (sortedges (g.edges_ ++ [mk_edge a b none]) ++
        [mk_edge a b (some w)]) } : Graph N E).is_node a &&
        ({ g with edges_ := sortedges (sortedges (g.edges_ ++ [mk_edge a b none]) ++
          [mk_edge a b (some w)]) } : Graph N E).is_node b) = true := by
      simp [Graph.is_node, ha, hb]
    have hperm2 : (sortedges (sortedges (g.edges_ ++ [mk_edge a b none]) ++
        [mk_edge a b (some w)])).Perm
        ((g.edges_ ++ [Edge.unweighted a b]) ++ [Edge.weighted a b w]) :=
      (sortedges_perm _).trans (hperm1.append_right _)
    have hfilter : ((sortedges (sortedges (g.edges_ ++ [mk_edge a b none]) ++
        [mk_edge a b (some w)])).filter
        (fun e => decide (e.get_nodes.1 = a ∧ e.get_nodes.2 = b))).Perm
        [Edge.unweighted a b, Edge.weighted a b w] := by
      refine (hperm2.filter _).trans ?_
      rw [List.filter_append, List.filter_append]
      have he1 : g.edges_.filter
          (fun e => decide (e.get_nodes.1 = a ∧ e.get_nodes.2 = b)) = [] := by
        rw [List.filter_eq_nil_iff]
        intro e he
        simp only [get_nodes_fst, get_nodes_snd, decide_eq_true_eq]
        exact hempty e he
      rw [he1]
      simp [get_nodes_fst, get_nodes_snd, Edge.src, Edge.dst, List.filter]
    have hsortpair : ∀ l : List (Edge N E),
        l.Perm [Edge.unweighted a b, Edge.weighted a b w] →
        bsort Graph.weight_le l = [Edge.unweighted a b, Edge.weighted a b w] := by
      intro l hl
      rcases perm_pair hl with hl | hl
      · rw [hl]
        simp [bsort, insort, Graph.weight_le, opt_lt, Edge.get_weight]
      · rw [hl]
        simp [bsort, insort, Graph.weight_le, opt_lt, Edge.get_weight]
    simp only [Graph.edges, hb2, if_true]
    rw [hsortpair _ hfilter]
  · intro g2 s d l hl
    by_cases hc : (g2.is_node s && g2.is_node d) = true
    · simp only [Graph.edges, hc, if_true] at hl
      rcases hl with ⟨⟩
      exact (bsort_pairwise Graph.weight_le weight_le_trans' weight_le_total' _).imp
        (fun hx => (weight_le_iff _ _).mp hx)
    · simp [Graph.edges, hc] at hl

/-- Witness for the amended C9 at a concrete graph. -/
theorem claim_C9_witness :
    (((graph_init [1, 2] : Graph Nat Int).insert_edge 1 2 none).2.insert_edge 1 2
      (some 5)).2.edges 1 2 =
      Except.ok [Edge.unweighted 1 2, Edge.weighted 1 2 5] :=
  (claim_C9_unweighted_weighted_coexist (graph_init [1, 2]) 1 2 5 (by decide) (by decide)
    (by decide)).2.2.1

/-! ### The heap model of `shared_ptr` aliasing, for the copy claim -/

/-- The heap of allocated edge objects; a `shared_ptr<edge>` is an index. -/
abbrev Heap (N E : Type) := List (Edge N E)

/-- A graph object as it really is in memory: the node set and a vector of
shared pointers into the heap. -/
structure HGraph (N E : Type) where
  nodes_ : List N
  edges_ : List Nat
deriving DecidableEq, Repr

/-- Pointer dereference. -/
def hderef (h : Heap N E) (p : Nat) : Option (Edge N E) := h[p]?

/-- The copy constructor / copy assignment:
`nodes_{other.nodes_}, edges_{other.edges_}` — it copies the vector of
shared pointers, not the pointed-to edge objects. -/
def hcopy (g : HGraph N E) : HGraph N E := { nodes_ := g.nodes_, edges_ := g.edges_ }

/-- The value-level state a caller observes through a graph object:
its node set, and the edge objects reached through its handles. -/
def toGraph (h : Heap N E) (g : HGraph N E) : Graph N E :=
  { nodes_ := g.nodes_, edges_ := g.edges_.filterMap (hderef h) }

/-- The `sortedges` comparator lifted to pointers: compare the pointed-to
edges (only valid pointers ever occur in a graph). -/
def hptr_le (h : Heap N E) (p q : Nat) : Bool :=
  match hderef h p, hderef h q with
  | some a, some b => edge_le a b
  | _, _ => true

/-- `replace_node` on the heap model: after the existence checks it swaps
the node, rewrites the endpoints of every edge of this graph in place
through the shared pointers, and sorts its own pointer vector. -/
def hreplace_node (h : Heap N E) (g : HGraph N E) (old_data new_data : N) :
    Except String Bool × Heap N E × HGraph N E :=
  if decide (old_data ∈ g.nodes_) then
    if !(decide (new_data ∈ g.nodes_)) then
      let h2 := g.edges_.foldl (fun hh p => hh.modify (rename_ends old_data new_data) p) h
      (Except.ok true, h2,
        { nodes_ := setInsert new_data (g.nodes_.erase old_data)
        , edges_ := bsort (hptr_le h2) g.edges_ })
    else (Except.ok false, h, g)
  else (Except.error Graph.replace_node_emsg, h, g)

omit [LinearOrder E] in
/-- Dereference after the endpoint-rewriting pass of `hreplace_node`:
a pointer occurring in the pass is renamed, any other is untouched. -/
theorem foldl_modify_deref (od nd : N) :
    ∀ (ps : List Nat), ps.Nodup → ∀ (h : Heap N E) (q : Nat),
      hderef (ps.foldl (fun hh p => hh.modify (rename_ends od nd) p) h) q =
        if q ∈ ps then (hderef h q).map (rename_ends od nd) else hderef h q
| [], _, h, q => by simp
| p :: ps, hnd, h, q => by
    have hnd' := List.nodup_cons.mp hnd
    rw [List.foldl_cons, foldl_modify_deref od nd ps hnd'.2]
    have hmod : ∀ m, hderef (h.modify (rename_ends od nd) p) m =
        if p = m then (hderef h m).map (rename_ends od nd) else hderef h m := by
      intro m
      rw [hderef, List.getElem?_modify]
      cases hm : h[m]? <;> by_cases hpm : p = m <;> simp [hpm, hderef, hm]
    by_cases hq : q ∈ ps
    · have hne : p ≠ q := fun hqp => hnd'.1 (hqp ▸ hq)
      rw [if_pos hq, if_pos (List.mem_cons_of_mem p hq), hmod q, if_neg hne]
    · rw [if_neg hq]
      by_cases hqp : q = p
      · rw [if_pos (by rw [hqp]; exact List.mem_cons_self p (p :: ps).tail)]
        rw [hmod q, if_pos hqp.symm]
      · rw [if_neg (fun hmem => by
          rcases List.mem_cons.mp hmem with hm | hm
          · exact hqp hm
          · exact hq hm)]
        rw [hmod q, if_neg (fun hpq => hqp hpq.symm)]

omit [LinearOrder N] [LinearOrder E] in
theorem filterMap_map_of_pointwise {α β : Type} (r : β → β) (f g : α → Option β) :
    ∀ l : List α, (∀ q ∈ l, g q = (f q).map r) → l.filterMap g = (l.filterMap f).map r
| [], _ => rfl
| q :: l, hp => by
    rw [List.filterMap_cons, List.filterMap_cons, hp q (by simp)]
    have ih := filterMap_map_of_pointwise r f g l (fun x hx => hp x (by simp [hx]))
    cases hf : f q <;> simp [ih]

/-- `operator==` accepts any graph compared with itself: the sizes agree,
every node is found, and every edge triple finds itself. -/
theorem graph_beq_refl (g : Graph N E) : g.graph_beq g = true := by
  unfold Graph.graph_beq
  rw [if_pos ⟨rfl, rfl⟩, Bool.and_eq_true]
  constructor
  · rw [List.all_eq_true]
    intro n hn
    simpa using hn
  · rw [List.all_eq_true]
    intro e he
    rw [Graph.find, List.findIdx?_isSome, List.any_eq_true]
    exact ⟨e, he, by simp⟩

/-- Counterexample to C1 as stated: the copy shares the edge objects, so
`replace_node` on the copy rewrites what the original observes.  Heap with
one edge 1→2(1), graph over nodes {1, 2} holding it; after copying and
`replace_node(1, 3)` on the copy, the original's observable state differs
from its state before the call. -/
theorem claim_C1_counterexample :
    Graph.graph_beq (toGraph ([Edge.weighted 1 2 1] : Heap Nat Int) (HGraph.mk [1, 2] [0]))
        (toGraph [Edge.weighted 1 2 1] (hcopy (HGraph.mk [1, 2] [0]))) = true ∧
    toGraph (hreplace_node ([Edge.weighted 1 2 1] : Heap Nat Int)
        (hcopy (HGraph.mk [1, 2] [0])) 1 3).2.1 (HGraph.mk [1, 2] [0]) ≠
      toGraph [Edge.weighted 1 2 1] (HGraph.mk [1, 2] [0]) := by
  decide

/-- C1 (amended): a copy compares equal to the original and duplicates the
node store and the handle vector, but the edge objects are shared rather
than deeply duplicated: after `replace_node(old, new)` on the copy (old a
node, new fresh), the original graph — whose own stores were never touched —
observes exactly its edges with every endpoint equal to old renamed to new. -/
theorem claim_C1_copy_shallow (h : Heap N E) (g : HGraph N E) (od nd : N)
    (hnodup : g.edges_.Nodup) (ho : od ∈ g.nodes_) (hn : nd ∉ g.nodes_) :
    Graph.graph_beq (toGraph h g) (toGraph h (hcopy g)) = true ∧
    (hcopy g).edges_ = g.edges_ ∧
    (hreplace_node h (hcopy g) od nd).1 = Except.ok true ∧
    (toGraph (hreplace_node h (hcopy g) od nd).2.1 g).nodes_ = g.nodes_ ∧
    (toGraph (hreplace_node h (hcopy g) od nd).2.1 g).edges_ =
      (toGraph h g).edges_.map (rename_ends od nd) := by
  have hres : hreplace_node h (hcopy g) od nd =
      (Except.ok true,
        g.edges_.foldl (fun hh p => hh.modify (rename_ends od nd) p) h,
        { nodes_ := setInsert nd (g.nodes_.erase od)
        , edges_ := bsort (hptr_le (g.edges_.foldl
            (fun hh p => hh.modify (rename_ends od nd) p) h)) g.edges_ }) := by
    simp [hreplace_node, hcopy, ho, hn]
  refine ⟨?_, rfl, by rw [hres], by rw [hres]; rfl, ?_⟩
  · exact graph_beq_refl _
  · rw [hres]
    show (g.edges_.filterMap (hderef _)) = (g.edges_.filterMap (hderef h)).map _
    refine filterMap_map_of_pointwise (rename_ends od nd) (hderef h) _ g.edges_ ?_
    intro q hq
    rw [foldl_modify_deref od nd g.edges_ hnodup h q, if_pos hq]

/-- Witness for the amended C1 at a concrete heap and graph. -/
theorem claim_C1_witness :
    (toGraph (hreplace_node ([Edge.weighted 1 2 1] : Heap Nat Int)
        (hcopy (HGraph.mk [1, 2] [0])) 1 3).2.1 (HGraph.mk [1, 2] [0])).edges_ =
      (toGraph ([Edge.weighted 1 2 1] : Heap Nat Int)
        (HGraph.mk [1, 2] [0])).edges_.map (rename_ends 1 3) :=
  (claim_C1_copy_shallow [Edge.weighted 1 2 1] (HGraph.mk [1, 2] [0]) 1 3
    (by decide) (by decide) (by decide)).2.2.2.2

/-! ### The formatter claim -/

omit [LinearOrder N] [LinearOrder E] in
/-- Two lists sorted by a relation that is antisymmetric on their elements
are equal whenever they are permutations of one another. -/
theorem pairwise_perm_eq {α : Type} {r : α → α → Prop}
    (hanti : ∀ a b, r a b → r b a → a = b) :
    ∀ {l1 l2 : List α}, l1.Perm l2 → l1.Pairwise r → l2.Pairwise r → l1 = l2
| [], l2, hp, _, _ => (List.Perm.eq_nil hp.symm).symm
| a :: t1, l2, hp, h1, h2 => by
    cases l2 with
    | nil => exact absurd (List.Perm.eq_nil hp) (by simp)
    | cons b t2 =>
      have hab : a = b := by
        rcases List.mem_cons.mp (hp.mem_iff.mp (List.mem_cons_self a t1)) with hc | hc
        · exact hc
        · rcases List.mem_cons.mp (hp.symm.mem_iff.mp (List.mem_cons_self b t2)) with
            hc' | hc'
          · exact hc'.symm
          · match h1, h2 with
            | List.Pairwise.cons ha _, List.Pairwise.cons hb _ =>
              exact hanti a b (ha b hc') (hb a hc)
      subst hab
      have ht := hp.cons_inv
      match h1, h2 with
      | List.Pairwise.cons _ h1', List.Pairwise.cons _ h2' =>
        rw [pairwise_perm_eq hanti ht h1' h2']

omit [LinearOrder N] [LinearOrder E] in
/-- A `mapM` over `Except` whose steps all succeed is the successful map. -/
theorem mapM_ok {α β : Type} (f : α → Except String β) (v : α → β) :
    ∀ l : List α, (∀ a ∈ l, f a = Except.ok (v a)) →
      l.mapM f = Except.ok (l.map v)
| [], _ => rfl
| a :: l, h => by
    rw [List.mapM_cons, h a (by simp), mapM_ok f v l (fun x hx => h x (by simp [hx]))]
    rfl

theorem nle_trans' : ∀ a b c : N, decide (a ≤ b) = true → decide (b ≤ c) = true →
    decide (a ≤ c) = true := by
  intro a b c h1 h2
  simp only [decide_eq_true_eq] at *
  exact le_trans h1 h2

theorem nle_total' : ∀ a b : N, decide (a ≤ b) = true ∨ decide (b ≤ a) = true := by
  intro a b
  simpa using le_total a b

theorem nle_antisymm' : ∀ a b : N, decide (a ≤ b) = true → decide (b ≤ a) = true →
    a = b := by
  intro a b h1 h2
  simp only [decide_eq_true_eq] at *
  exact le_antisymm h1 h2

omit [LinearOrder E] in
/-- Membership in the `connections` accumulation loop. -/
theorem conn_loop_mem (src : N) :
    ∀ (l : List (Edge N E)) (res : List N) (x : N),
      x ∈ conn_loop src l res ↔ x ∈ res ∨ ∃ e ∈ l, e.src = src ∧ e.dst = x
| [], res, x => by simp [conn_loop]
| e :: l, res, x => by
    rw [conn_loop]
    by_cases hc : e.get_nodes.1 = src ∧ ¬(e.get_nodes.2 ∈ res)
    · rw [if_pos hc, conn_loop_mem src l (res ++ [e.get_nodes.2]) x]
      constructor
      · rintro (hr | ⟨f, hf, hfs, hfd⟩)
        · rcases List.mem_append.mp hr with hr | hr
          · exact Or.inl hr
          · exact Or.inr ⟨e, List.mem_cons_self e l, hc.1,
              (List.mem_singleton.mp hr).symm⟩
        · exact Or.inr ⟨f, List.mem_cons_of_mem e hf, hfs, hfd⟩
      · rintro (hr | ⟨f, hf, hfs, hfd⟩)
        · exact Or.inl (List.mem_append.mpr (Or.inl hr))
        · rcases List.mem_cons.mp hf with hfe | hfl
          · rw [hfe] at hfd
            exact Or.inl (List.mem_append.mpr (Or.inr (List.mem_singleton.mpr hfd.symm)))
          · exact Or.inr ⟨f, hfl, hfs, hfd⟩
    · rw [if_neg hc, conn_loop_mem src l res x]
      constructor
      · rintro (hr | ⟨f, hf, hfs, hfd⟩)
        · exact Or.inl hr
        · exact Or.inr ⟨f, List.mem_cons_of_mem e hf, hfs, hfd⟩
      · rintro (hr | ⟨f, hf, hfs, hfd⟩)
        · exact Or.inl hr
        · rcases List.mem_cons.mp hf with hfe | hfl
          · rw [hfe] at hfs hfd
            rcases not_and_or.mp hc with hns | hnr
            · exact absurd hfs hns
            · rw [not_not, get_nodes_snd, hfd] at hnr
              exact Or.inl hnr
          · exact Or.inr ⟨f, hfl, hfs, hfd⟩

omit [LinearOrder E] in
/-- The `connections` accumulation loop keeps the result duplicate-free. -/
theorem conn_loop_nodup (src : N) :
    ∀ (l : List (Edge N E)) (res : List N), res.Nodup → (conn_loop src l res).Nodup
| [], _, h => h
| e :: l, res, h => by
    rw [conn_loop]
    by_cases hc : e.get_nodes.1 = src ∧ ¬(e.get_nodes.2 ∈ res)
    · rw [if_pos hc]
      refine conn_loop_nodup src l _ ?_
      rw [List.nodup_append]
      exact ⟨h, List.nodup_singleton _, by
        intro a ha hamem
        rw [List.mem_singleton.mp hamem] at ha
        exact hc.2 ha⟩
    · rw [if_neg hc]
      exact conn_loop_nodup src l res h

/-- The claim's render string: weighted edges as
`"<src> -> <dst> | W | <weight>"`, unweighted as `"<src> -> <dst> | U"`. -/
def render_spec [ToString N] [ToString E] : Edge N E → String
| .weighted s d w => toString s ++ " -> " ++ toString d ++ " | W | " ++ toString w
| .unweighted s d => toString s ++ " -> " ++ toString d ++ " | U"

/-- The claim's destination list of a node: the distinct destinations of its
outgoing edges, ascending. -/
def spec_dests (g : Graph N E) (n : N) : List N :=
  bsort (fun a b => decide (a ≤ b))
    (((g.edges_.filter (fun e => decide (e.src = n))).map Edge.dst).dedup)

/-- The claim's lines for one destination: that destination's edges
ascending by weight with unweighted first, one indented render line each. -/
def spec_block [ToString N] [ToString E] (g : Graph N E) (n d : N) : String :=
  String.join ((bsort (fun a b => decide (wle a.get_weight b.get_weight))
    (g.edges_.filter (fun e => decide (e.src = n ∧ e.dst = d)))).map
      (fun e => "  " ++ render_spec e ++ "\n"))

/-- The claim's whole dump: a leading line break, then for every node in
ascending order the block `"<node> (\n"`, its destination lines, `")\n"`. -/
def spec_out [ToString N] [ToString E] (g : Graph N E) : String :=
  "\n" ++ String.join ((bsort (fun a b => decide (a ≤ b)) g.nodes_).map (fun n =>
    toString n ++ " (\n" ++
      String.join ((spec_dests g n).map (fun d => spec_block g n d)) ++ ")\n"))

omit [LinearOrder N] [LinearOrder E] in
theorem print_edge_eq_render [ToString N] [ToString E] (e : Edge N E) :
    e.print_edge = render_spec e := by cases e <;> rfl

omit [LinearOrder E] in
/-- `connections` computes the claim's destination list. -/
theorem connections_eq_spec (g : Graph N E) (n : N) (hn : n ∈ g.nodes_) :
    g.connections n = Except.ok (spec_dests g n) := by
  have h1 : g.is_node n = true := by simp [Graph.is_node, hn]
  simp only [Graph.connections, h1, if_true]
  congr 1
  unfold spec_dests
  apply pairwise_perm_eq nle_antisymm'
  · refine (bsort_perm _ _).trans (List.Perm.trans ?_ (bsort_perm _ _).symm)
    apply (List.perm_ext_iff_of_nodup (conn_loop_nodup n g.edges_ [] List.nodup_nil)
      (List.nodup_dedup _)).mpr
    intro x
    rw [conn_loop_mem n g.edges_ [] x]
    simp only [List.not_mem_nil, false_or, List.mem_dedup, List.mem_map, List.mem_filter,
      decide_eq_true_eq]
    constructor
    · rintro ⟨e, he, hes, hed⟩
      exact ⟨e, ⟨he, hes⟩, hed⟩
    · rintro ⟨e, ⟨he, hes⟩, hed⟩
      exact ⟨e, he, hes, hed⟩
  · exact bsort_pairwise _ nle_trans' nle_total' _
  · exact bsort_pairwise _ nle_trans' nle_total' _

/-- `edges` computes the claim's per-destination edge list. -/
theorem edges_eq_spec (g : Graph N E) (n d : N) (hn : n ∈ g.nodes_) (hd : d ∈ g.nodes_) :
    g.edges n d = Except.ok (bsort (fun a b => decide (wle a.get_weight b.get_weight))
      (g.edges_.filter (fun e => decide (e.src = n ∧ e.dst = d)))) := by
  have h1 : (g.is_node n && g.is_node d) = true := by simp [Graph.is_node, hn, hd]
  simp only [Graph.edges, h1, if_true]
  congr 1
  have hcmp : (fun a b : Edge N E => decide (wle a.get_weight b.get_weight)) =
      Graph.weight_le := by
    funext a b
    cases hw : Graph.weight_le a b
    · exact decide_eq_false (fun hx => by
        rw [(weight_le_iff a b).mpr hx] at hw
        exact Bool.true_eq_false.mp hw)
    · exact decide_eq_true ((weight_le_iff a b).mp hw)
  rw [hcmp]
  congr 1

omit [LinearOrder E] in
theorem spec_dests_mem_nodes (g : Graph N E) (h1 : I1 g) (n d : N)
    (hd : d ∈ spec_dests g n) : d ∈ g.nodes_ := by
  unfold spec_dests at hd
  have hmem := (bsort_perm _ _).mem_iff.mp hd
  simp only [List.mem_dedup, List.mem_map, List.mem_filter, decide_eq_true_eq] at hmem
  rcases hmem with ⟨e, ⟨he, _⟩, hed⟩
  rw [← hed]
  exact (h1 e he).2

/-- C8: under invariant I1 the dump is exactly the claim's format — leading
line break, then for every node in ascending order a `"<node> (\n"` block
with one line per outgoing edge (destinations ascending; for each
destination its edges ascending by weight, unweighted first; each line the
edge's render string indented two spaces) closed by `")\n"`; a node without
outgoing edges yields an empty block. -/
theorem claim_C8_formatter [ToString N] [ToString E] (g : Graph N E) (h1 : I1 g) :
    g.graph_out = Except.ok (spec_out g) := by
  rw [Graph.graph_out]
  have hblock : ∀ n ∈ g.nodes, (do
      let conn ← g.connections n
      let lines ← conn.mapM (fun cn => do
        let ce ← g.edges n cn
        pure (String.join (ce.map (fun e => "  " ++ e.print_edge ++ "\n"))))
      pure (toString n ++ " (\n" ++ String.join lines ++ ")\n") : Except String String) =
      Except.ok (toString n ++ " (\n" ++
        String.join ((spec_dests g n).map (fun d => spec_block g n d)) ++ ")\n") := by
    intro n hn
    rw [Graph.nodes] at hn
    have hn' : n ∈ g.nodes_ := (bsort_perm _ _).mem_iff.mp hn
    rw [connections_eq_spec g n hn']
    show ((spec_dests g n).mapM (fun cn => do
        let ce ← g.edges n cn
        pure (String.join (ce.map
          (fun e : Edge N E => "  " ++ e.print_edge ++ "\n")))) >>=
      fun lines => pure (toString n ++ " (\n" ++ String.join lines ++ ")\n")) = _
    rw [mapM_ok _ (fun d => spec_block g n d) (spec_dests g n) ?_]
    · rfl
    · intro d hd
      rw [edges_eq_spec g n d hn' (spec_dests_mem_nodes g h1 n d hd)]
      simp only [print_edge_eq_render]
      rfl
  rw [mapM_ok _ (fun n => toString n ++ " (\n" ++
    String.join ((spec_dests g n).map (fun d => spec_block g n d)) ++ ")\n")
    g.nodes hblock]
  rfl

/-- Witness for C8 at a concrete graph: two nodes, one weighted edge, and
node 2 printed as an empty block. -/
theorem claim_C8_witness :
    (Graph.mk [1, 2] [Edge.weighted 1 2 3] : Graph Nat Int).graph_out =
      Except.ok (spec_out (Graph.mk [1, 2] [Edge.weighted 1 2 3] : Graph Nat Int)) :=
  claim_C8_formatter _ (by decide)

end GDWG
